import Mathlib

/-!
Shallow embedding of the Rust native addon
`src/native-addons/rust-addon/src/lib.rs`: five pure functions
(`count_primes`, `is_prime`, `fibonacci`, `hash_password`, `sum_array`)
exposed over a napi boundary, together with proofs of the specified
properties.

Machine integers are modelled as `Nat` with explicit reductions
modulo `2 ^ 32` (u32) and `2 ^ 64` (u64) wherever the Rust code wraps
or casts.  The floating-point square root inside `is_prime` is bridged
to `Nat.sqrt` by an explicit rounding theorem over the reals.
-/

namespace RustAddon

/-- Wrap-around reduction for 64-bit unsigned arithmetic (`u64`). -/
def wrap64 (x : Nat) : Nat := x % 2 ^ 64

/-- Wrap-around reduction for 32-bit unsigned casts (`as u32`). -/
def wrap32 (x : Nat) : Nat := x % 2 ^ 32

/-- The Rust range `lo..=hi` stepped by `step`, as a list
(`(lo..=hi).step_by(step)`): `lo, lo + step, …`, never exceeding `hi`;
empty when `hi < lo`. -/
def stepRange (lo hi step : Nat) : List Nat :=
  if hi < lo then [] else List.range' lo ((hi - lo) / step + 1) step

/-- The Rust inclusive range `lo..=hi` as a list (step 1). -/
def rangeIncl (lo hi : Nat) : List Nat := stepRange lo hi 1

/-- Largest `j ≤ k` with `j * j ≤ n`, by structural recursion on `k`
(so that the kernel can evaluate it on concrete inputs, unlike
`Nat.sqrt`, which recurses on a well-founded measure). -/
def isqrtFrom (n : Nat) : Nat → Nat
  | 0 => 0
  | k + 1 => if (k + 1) * (k + 1) ≤ n then k + 1 else isqrtFrom n k

/-- The integer square root, `⌊√n⌋`.  This models the Rust expression
`(n as f64).sqrt() as u32`: the theorem `isqrt_eq_sqrt` identifies it
with `Nat.sqrt`, and the theorem `float_sqrt_bridge` proves that for
every `n < 2 ^ 32` the correctly rounded double-precision square root,
truncated toward zero, equals `Nat.sqrt n`, so the model is exact on
the whole u32 domain. -/
def isqrt (n : Nat) : Nat := isqrtFrom n n

/-- Embedding of `is_prime` (lib.rs lines 24-36). -/
def is_prime (n : Nat) : Bool :=
  if n < 2 then false
  else if n = 2 then true
  else if n % 2 = 0 then false
  else !((stepRange 3 (isqrt n) 2).any fun i => n % i == 0)

/-- Embedding of `count_primes` (lib.rs lines 18-20):
`(2..=max).filter(|&n| is_prime(n)).count() as u32`. -/
def count_primes (max : Nat) : Nat :=
  wrap32 ((rangeIncl 2 max).filter (fun n => is_prime n)).length

/-- Loop body of `fibonacci` iterated `k` times with wrapping u64
addition (release-profile semantics of `a + b` on `u64`):
`let temp = a + b; a = b; b = temp;`. -/
def fib_iter : Nat → Nat × Nat → Nat × Nat
  | 0, p => p
  | k + 1, (a, b) => fib_iter k (b, wrap64 (a + b))

/-- Embedding of `fibonacci` (lib.rs lines 40-52): `n <= 1` returns `n`,
otherwise the loop `for _ in 2..=n` advances the pair `(a, b)` starting
from `(0, 1)` exactly `n - 1` times and returns `b`. -/
def fibonacci (n : Nat) : Nat :=
  if n ≤ 1 then n else (fib_iter (n - 1) (0, 1)).2

/-- Checked u64 addition: `a + b` under Rust's overflow checks
(the default debug/test profile), where overflow panics instead of
wrapping.  A panic is modelled as `none`. -/
def checked_add64 (a b : Nat) : Option Nat :=
  if a + b < 2 ^ 64 then some (a + b) else none

/-- The `fibonacci` loop under overflow-checked addition. -/
def fib_iter_checked : Nat → Nat × Nat → Option (Nat × Nat)
  | 0, p => some p
  | k + 1, (a, b) =>
    match checked_add64 a b with
    | none => none
    | some t => fib_iter_checked k (b, t)

/-- Embedding of `fibonacci` as compiled with overflow checks enabled
(cargo's default debug and test profile): the bare `a + b` in the source
panics (`none`) on u64 overflow instead of wrapping. -/
def fibonacci_checked (n : Nat) : Option Nat :=
  if n ≤ 1 then some n else (fib_iter_checked (n - 1) (0, 1)).map Prod.snd

/-- One update of the hash accumulator (lib.rs line 63):
`hash.wrapping_mul(31).wrapping_add(byte as u64).wrapping_add(i as u64)`,
each operation wrapping individually.  The pair is `(i, byte)` as
produced by `bytes.iter().enumerate()`. -/
def hash_step (h : Nat) (ib : Nat × Nat) : Nat :=
  wrap64 (wrap64 (wrap64 (h * 31) + ib.2) + ib.1)

/-- One full pass of the inner `for (i, &byte)` loop over the password
bytes. -/
def hash_once (bytes : List Nat) (h : Nat) : Nat :=
  bytes.enum.foldl hash_step h

/-- The outer `for _ in 0..iterations` loop of `hash_password`. -/
def hash_iter (bytes : List Nat) : Nat → Nat → Nat
  | 0, h => h
  | k + 1, h => hash_iter bytes k (hash_once bytes h)

/-- Index-carrying form of one hash pass, structurally recursive on the
byte list: processing the remaining bytes with `i` the index of the
first of them.  Both the code-side enumerated fold and the spec-side
position-indexed fold are proved equal to it. -/
def hashPassIdx : List Nat → Nat → Nat → Nat
  | [], _, h => h
  | b :: bs, i, h => hashPassIdx bs (i + 1) (wrap64 (wrap64 (wrap64 (h * 31) + b) + i))

/-- Lowercase hexadecimal digit character for `d < 16`, as produced by
Rust's `{:x}` formatting. -/
def hexDigit (d : Nat) : Char :=
  if d < 10 then Char.ofNat (48 + d) else Char.ofNat (87 + d)

/-- Rust's `format!("{:016x}", h)` for `h < 2 ^ 64`: exactly 16
lowercase hexadecimal digits, zero-padded on the left, most significant
digit first. -/
def toHex16 (h : Nat) : String :=
  String.mk ((List.range 16).reverse.map fun j => hexDigit (h / 16 ^ j % 16))

/-- Embedding of `hash_password` (lib.rs lines 57-68).  The password is
represented by its UTF-8 byte sequence (`password.as_bytes()`), each
byte a `Nat` below 256. -/
def hash_password (bytes : List Nat) (iterations : Nat) : String :=
  toHex16 (hash_iter bytes iterations 0)

/-- Embedding of `sum_array` (lib.rs lines 72-74):
`numbers.iter().sum()` on `f64`, a left-to-right fold of IEEE-754
double addition starting from `0.0`. -/
def sum_array (numbers : List Float) : Float :=
  numbers.foldl (fun a x => a + x) 0.0

/-- Modelled from the spec: the Demo String Hash accumulator of spec
section 4.4, written from the spec's words for the refinement proof of
claim C3: over `iterations` full passes of the byte sequence, the byte
at 0-indexed position `i` updates
`accumulator := accumulator * 31 + byte + i`, each of the three
operations individually wrapping modulo `2 ^ 64`; 0 iterations leave
the accumulator at 0. -/
def specHashAccum (bytes : List Nat) (iterations : Nat) : Nat :=
  (fun pass => pass^[iterations] 0) fun acc =>
    (List.range bytes.length).foldl
      (fun a i => wrap64 (wrap64 (wrap64 (a * 31) + bytes.getD i 0) + i)) acc

/-- A call arriving over the napi boundary: one exposed operation
together with its (already marshalled) primitive arguments. -/
inductive Request where
  | countPrimesReq (max : Nat)
  | isPrimeReq (n : Nat)
  | fibonacciReq (n : Nat)
  | hashPasswordReq (bytes : List Nat) (iterations : Nat)
  | sumArrayReq (numbers : List Float)

/-- A primitive value returned over the napi boundary. -/
inductive Response where
  | u32val (v : Nat)
  | boolVal (v : Bool)
  | u64val (v : Nat)
  | strVal (v : String)
  | f64val (v : Float)

/-- Dispatch of one boundary call to the corresponding function.  There
is no other input: no global state, no call counter, no clock. -/
def runRequest : Request → Response
  | .countPrimesReq max => .u32val (count_primes max)
  | .isPrimeReq n => .boolVal (is_prime n)
  | .fibonacciReq n => .u64val (fibonacci n)
  | .hashPasswordReq bytes iterations => .strVal (hash_password bytes iterations)
  | .sumArrayReq numbers => .f64val (sum_array numbers)

/-- A whole session: a sequence of calls, answered in order. -/
def runSession (reqs : List Request) : List Response :=
  reqs.map runRequest

/-- Rounding contract of the Rust expression `(n as f64).sqrt()` for
`n < 2 ^ 32`, stated over the reals: `d` is the double actually
returned.  Since `n < 2 ^ 53` it converts to `f64` exactly, and IEEE-754
requires a correctly rounded square root, so `d` is within half an ulp
of `Real.sqrt n` — far below `2⁻¹⁷` at magnitudes up to `2 ^ 16` — and
when `Real.sqrt n` is itself an integer (hence exactly representable)
`d` equals it exactly. -/
def roundedSqrt (n : Nat) (d : ℝ) : Prop :=
  0 ≤ d ∧ |d - Real.sqrt n| < (2 : ℝ)⁻¹ ^ 17 ∧
    ((∃ k : Nat, k * k = n) → d = Real.sqrt n)

/-! ### Lemmas about the trial-division loop of `is_prime` -/

theorem isqrtFrom_sq_le (n : Nat) : ∀ k, isqrtFrom n k * isqrtFrom n k ≤ n := by
  intro k
  induction k with
  | zero => simp [isqrtFrom]
  | succ k ih =>
    unfold isqrtFrom
    by_cases h : (k + 1) * (k + 1) ≤ n
    · rw [if_pos h]
      exact h
    · rw [if_neg h]
      exact ih

theorem lt_isqrtFrom_succ (n : Nat) :
    ∀ k, n < (k + 1) * (k + 1) → n < (isqrtFrom n k + 1) * (isqrtFrom n k + 1) := by
  intro k
  induction k with
  | zero => simp [isqrtFrom]
  | succ k ih =>
    intro hk
    unfold isqrtFrom
    by_cases h : (k + 1) * (k + 1) ≤ n
    · rw [if_pos h]
      exact hk
    · rw [if_neg h]
      exact ih (by omega)

theorem isqrt_eq_sqrt (n : Nat) : isqrt n = Nat.sqrt n :=
  Nat.eq_sqrt.mpr ⟨isqrtFrom_sq_le n n, lt_isqrtFrom_succ n n (by nlinarith)⟩

theorem mem_stepRange_odd {s i : Nat} :
    i ∈ stepRange 3 s 2 ↔ 3 ≤ i ∧ i ≤ s ∧ i % 2 = 1 := by
  unfold stepRange
  by_cases h : s < 3
  · simp only [if_pos h, List.not_mem_nil, false_iff]
    omega
  · simp only [if_neg h, List.mem_range']
    constructor
    · rintro ⟨j, hj, rfl⟩
      omega
    · rintro ⟨h3, hs, hodd⟩
      exact ⟨(i - 3) / 2, by omega, by omega⟩

theorem trial_div_iff {n : Nat} (h2 : 2 < n) (hodd : n % 2 = 1) :
    (∀ i, 3 ≤ i → i ≤ Nat.sqrt n → i % 2 = 1 → ¬i ∣ n) ↔ Nat.Prime n := by
  constructor
  · intro h
    rw [Nat.prime_def_le_sqrt]
    refine ⟨by omega, fun m h2m hms hdvd => ?_⟩
    by_cases hm2 : m % 2 = 0
    · have h2n : 2 ∣ n := dvd_trans (Nat.dvd_of_mod_eq_zero hm2) hdvd
      omega
    · exact h m (by omega) hms (by omega) hdvd
  · intro hp i h3i his hio hdvd
    exact (Nat.prime_def_le_sqrt.mp hp).2 i (by omega) his hdvd

theorem is_prime_odd_eq {n : Nat} (h2 : 2 < n) (hodd : n % 2 = 1) :
    (is_prime n = true ↔ ∀ i, 3 ≤ i → i ≤ Nat.sqrt n → i % 2 = 1 → ¬i ∣ n) := by
  unfold is_prime
  rw [if_neg (by omega), if_neg (by omega), if_neg (by omega), isqrt_eq_sqrt]
  rw [Bool.not_eq_true', List.any_eq_false]
  constructor
  · intro h i h3i his hio hdvd
    have hmem : i ∈ stepRange 3 (Nat.sqrt n) 2 := mem_stepRange_odd.mpr ⟨h3i, his, hio⟩
    exact h i hmem (beq_iff_eq.mpr (Nat.mod_eq_zero_of_dvd hdvd))
  · intro h i hmem hbeq
    obtain ⟨h3i, his, hio⟩ := mem_stepRange_odd.mp hmem
    exact h i h3i his hio (Nat.dvd_of_mod_eq_zero (beq_iff_eq.mp hbeq))

theorem is_prime_iff (n : Nat) : is_prime n = true ↔ Nat.Prime n := by
  by_cases h2 : n < 2
  · unfold is_prime
    rw [if_pos h2]
    constructor
    · intro h
      exact absurd h Bool.false_ne_true
    · intro hp
      exact absurd hp.two_le (by omega)
  by_cases he : n = 2
  · subst he
    simp [is_prime, Nat.prime_two]
  by_cases hev : n % 2 = 0
  · unfold is_prime
    rw [if_neg h2, if_neg he, if_pos hev]
    constructor
    · intro h
      exact absurd h Bool.false_ne_true
    · intro hp
      exact absurd ((Nat.Prime.even_iff hp).mp (Nat.even_iff.mpr hev)) he
  · rw [is_prime_odd_eq (by omega) (by omega)]
    exact trial_div_iff (by omega) (by omega)

/-! ### The floating-point square root never misses the integer bound -/

theorem float_sqrt_bridge (n : Nat) (hn : n < 2 ^ 32) (d : ℝ)
    (hd : roundedSqrt n d) : (⌊d⌋).toNat = Nat.sqrt n := by
  obtain ⟨hd0, herr, hexact⟩ := hd
  have hεval : (2 : ℝ)⁻¹ ^ 17 = 1 / 131072 := by norm_num
  rw [hεval] at herr
  have hkk : Nat.sqrt n * Nat.sqrt n ≤ n := Nat.sqrt_le n
  have hk16 : Nat.sqrt n ≤ 65535 := by
    by_contra h
    push_neg at h
    have : 65536 * 65536 ≤ Nat.sqrt n * Nat.sqrt n :=
      Nat.mul_le_mul (by omega) (by omega)
    omega
  by_cases hsq : ∃ m : Nat, m * m = n
  · obtain ⟨m, hm⟩ := hsq
    have hkm : Nat.sqrt n = m := by rw [← hm, Nat.sqrt_eq]
    have hde : d = Real.sqrt n := hexact ⟨m, hm⟩
    have hsn : Real.sqrt n = (m : ℝ) := by
      rw [← hm]
      push_cast
      rw [show ((m : ℝ) * m) = (m : ℝ) ^ 2 by ring, Real.sqrt_sq (by positivity)]
    rw [hde, hsn, Int.floor_natCast, Int.toNat_natCast, hkm]
  · have hlt : Nat.sqrt n * Nat.sqrt n < n :=
      lt_of_le_of_ne hkk fun h => hsq ⟨Nat.sqrt n, h⟩
    have hup : n < (Nat.sqrt n + 1) * (Nat.sqrt n + 1) := Nat.lt_succ_sqrt n
    have hkr : ((Nat.sqrt n : ℝ)) ≤ 65535 := by exact_mod_cast hk16
    have h1 : (Nat.sqrt n : ℝ) * (Nat.sqrt n : ℝ) + 1 ≤ (n : ℝ) := by
      exact_mod_cast hlt
    have h3 : (n : ℝ) + 1 ≤ ((Nat.sqrt n : ℝ) + 1) * ((Nat.sqrt n : ℝ) + 1) := by
      exact_mod_cast hup
    have hlow : (Nat.sqrt n : ℝ) + 1 / 131072 ≤ Real.sqrt n := by
      rw [Real.le_sqrt (by positivity) (by positivity)]
      nlinarith
    have h0 : (0 : ℝ) ≤ (Nat.sqrt n : ℝ) := Nat.cast_nonneg _
    have hhigh : Real.sqrt n < (Nat.sqrt n : ℝ) + 1 - 1 / 131072 := by
      rw [Real.sqrt_lt' (by linarith)]
      nlinarith
    have habs := abs_lt.mp herr
    have hfl : ⌊d⌋ = (Nat.sqrt n : ℤ) := by
      rw [Int.floor_eq_iff]
      constructor
      · push_cast
        linarith [habs.1]
      · push_cast
        linarith [habs.2]
    rw [hfl, Int.toNat_natCast]

/-- C1: for every u32 `n`, `is_prime n` decides mathematical primality
exactly as specified — `n < 2` is false, `n = 2` is true, even `n > 2`
is false, and otherwise the result is true iff no odd `i` with
`3 ≤ i ≤ ⌊√n⌋` divides `n` — and the floating-point square root cast to
an integer bound never misses the boundary divisor: any correctly
rounded double `d` truncates exactly to `Nat.sqrt n`, and in particular
`is_prime (p * p)` is false for every odd prime `p` with `p * p` in the
u32 range. -/
theorem is_prime_decides_primality (n : Nat) (hn : n < 2 ^ 32) :
    (n < 2 → is_prime n = false) ∧
    (n = 2 → is_prime n = true) ∧
    (2 < n → n % 2 = 0 → is_prime n = false) ∧
    (2 < n → n % 2 = 1 →
      (is_prime n = true ↔ ∀ i, 3 ≤ i → i ≤ Nat.sqrt n → i % 2 = 1 → ¬i ∣ n)) ∧
    (is_prime n = true ↔ Nat.Prime n) ∧
    (∀ d : ℝ, roundedSqrt n d → (⌊d⌋).toNat = Nat.sqrt n) ∧
    (∀ p : Nat, Nat.Prime p → p % 2 = 1 → p * p = n → is_prime n = false) := by
  refine ⟨?_, ?_, ?_, ?_, is_prime_iff n, float_sqrt_bridge n hn, ?_⟩
  · intro h
    unfold is_prime
    rw [if_pos h]
  · intro h
    subst h
    rfl
  · intro h2 hev
    unfold is_prime
    rw [if_neg (by omega), if_neg (by omega), if_pos hev]
  · intro h2 hodd
    exact is_prime_odd_eq h2 hodd
  · intro p hp hpodd hpn
    rw [Bool.eq_false_iff]
    intro htrue
    have hprime : Nat.Prime n := (is_prime_iff n).mp htrue
    have h2p : 2 ≤ p := hp.two_le
    rcases hprime.eq_one_or_self_of_dvd p ⟨p, hpn.symm⟩ with h1 | hself
    · omega
    · have hpp : p * p = p := by rw [hpn, hself]
      nlinarith

/-- Witness for C1 at `n = 9` with the concrete correctly rounded
double `d = 3`: `is_prime 9` is false and the truncated square root is
exactly `Nat.sqrt 9 = 3`. -/
theorem is_prime_decides_primality_witness :
    is_prime 9 = false ∧ (⌊(3 : ℝ)⌋).toNat = Nat.sqrt 9 := by
  have h := is_prime_decides_primality 9 (by norm_num)
  have hsqrt9 : Real.sqrt 9 = 3 := by
    rw [show (9 : ℝ) = 3 ^ 2 by norm_num, Real.sqrt_sq (by norm_num)]
  constructor
  · exact h.2.2.2.2.2.2 3 (by norm_num) (by norm_num) (by norm_num)
  · refine h.2.2.2.2.2.1 3 ⟨by norm_num, ?_, fun _ => hsqrt9.symm⟩
    rw [show ((9 : Nat) : ℝ) = (9 : ℝ) by norm_num, hsqrt9]
    norm_num

/-! ### Lemmas about `count_primes` -/

theorem rangeIncl_eq_range' (max : Nat) :
    rangeIncl 2 max = List.range' 2 (max + 1 - 2) := by
  unfold rangeIncl stepRange
  by_cases h : max < 2
  · rw [if_pos h, show max + 1 - 2 = 0 by omega]
    rfl
  · rw [if_neg h]
    congr 1
    omega

theorem count_filter_eq (max : Nat) :
    ((Finset.Icc 2 max).filter (fun i => is_prime i = true)).card
      = ((rangeIncl 2 max).filter (fun n => is_prime n)).length := by
  rw [rangeIncl_eq_range', Nat.Icc_eq_range', Finset.card_def, Finset.filter_val]
  change Multiset.card
      (Multiset.filter (fun i => is_prime i = true) ↑(List.range' 2 (max + 1 - 2)))
    = (List.filter (fun n => is_prime n) (List.range' 2 (max + 1 - 2))).length
  rw [Multiset.filter_coe, Multiset.coe_card]
  congr 1
  apply List.filter_congr
  intro x _
  simp

theorem count_primes_eq_length (max : Nat) (h : max < 2 ^ 32) :
    count_primes max = ((rangeIncl 2 max).filter (fun n => is_prime n)).length := by
  unfold count_primes wrap32
  apply Nat.mod_eq_of_lt
  have h1 : ((rangeIncl 2 max).filter (fun n => is_prime n)).length
      ≤ (rangeIncl 2 max).length := List.length_filter_le _ _
  have h2 : (rangeIncl 2 max).length = max + 1 - 2 := by
    rw [rangeIncl_eq_range', List.length_range']
  omega

/-- C2: for every u32 `max`, `count_primes max` is exactly the number of
integers `i` with `2 ≤ i ≤ max` for which `is_prime i` is true, and in
particular `count_primes 10 = 4` and `count_primes 100 = 25`. -/
theorem count_primes_counts (max : Nat) (hmax : max < 2 ^ 32) :
    count_primes max = ((Finset.Icc 2 max).filter (fun i => is_prime i = true)).card ∧
    count_primes 10 = 4 ∧ count_primes 100 = 25 := by
  refine ⟨?_, by decide, by decide⟩
  rw [count_primes_eq_length max hmax, count_filter_eq]

/-- Witness for C2 at `max = 10`. -/
theorem count_primes_counts_witness :
    count_primes 10 = ((Finset.Icc 2 10).filter (fun i => is_prime i = true)).card ∧
    count_primes 10 = 4 ∧ count_primes 100 = 25 :=
  count_primes_counts 10 (by norm_num)

/-- C8: the internal prime count never saturates or wraps — for every
u32 `max` the number of primes in `2..=max` is at most `max`, hence
below `2 ^ 32`, so the `as u32` conversion in `count_primes` is
lossless and the returned value is the exact count. -/
theorem count_primes_lossless (max : Nat) (hmax : max < 2 ^ 32) :
    ((rangeIncl 2 max).filter (fun n => is_prime n)).length ≤ max ∧
    ((rangeIncl 2 max).filter (fun n => is_prime n)).length < 2 ^ 32 ∧
    count_primes max = ((rangeIncl 2 max).filter (fun n => is_prime n)).length := by
  have h1 : ((rangeIncl 2 max).filter (fun n => is_prime n)).length
      ≤ (rangeIncl 2 max).length := List.length_filter_le _ _
  have h2 : (rangeIncl 2 max).length = max + 1 - 2 := by
    rw [rangeIncl_eq_range', List.length_range']
  exact ⟨by omega, by omega, count_primes_eq_length max hmax⟩

/-- Witness for C8 at `max = 100`. -/
theorem count_primes_lossless_witness :
    ((rangeIncl 2 100).filter (fun n => is_prime n)).length ≤ 100 ∧
    ((rangeIncl 2 100).filter (fun n => is_prime n)).length < 2 ^ 32 ∧
    count_primes 100 = ((rangeIncl 2 100).filter (fun n => is_prime n)).length :=
  count_primes_lossless 100 (by norm_num)

/-! ### Lemmas about `fibonacci` -/

theorem fib_iter_spec :
    ∀ (k m : Nat),
      fib_iter k (Nat.fib m % 2 ^ 64, Nat.fib (m + 1) % 2 ^ 64)
        = (Nat.fib (m + k) % 2 ^ 64, Nat.fib (m + k + 1) % 2 ^ 64) := by
  intro k
  induction k with
  | zero => intro m; rfl
  | succ k ih =>
    intro m
    show fib_iter k
        (Nat.fib (m + 1) % 2 ^ 64, wrap64 (Nat.fib m % 2 ^ 64 + Nat.fib (m + 1) % 2 ^ 64))
      = _
    have hw : wrap64 (Nat.fib m % 2 ^ 64 + Nat.fib (m + 1) % 2 ^ 64)
        = Nat.fib (m + 1 + 1) % 2 ^ 64 := by
      unfold wrap64
      rw [Nat.add_mod_mod, Nat.mod_add_mod]
      congr 1
      rw [show m + 1 + 1 = m + 2 by omega, Nat.fib_add_two]
    rw [hw, ih (m + 1), show m + 1 + k = m + (k + 1) from by omega]

theorem fibonacci_eq_fib (n : Nat) : fibonacci n = Nat.fib n % 2 ^ 64 := by
  unfold fibonacci
  by_cases h : n ≤ 1
  · rw [if_pos h]
    interval_cases n
    · rfl
    · rfl
  · rw [if_neg h]
    have h0 : ((0 : Nat), (1 : Nat)) = (Nat.fib 0 % 2 ^ 64, Nat.fib 1 % 2 ^ 64) := by
      norm_num
    rw [h0, fib_iter_spec (n - 1) 0]
    show Nat.fib (0 + (n - 1) + 1) % 2 ^ 64 = _
    rw [show 0 + (n - 1) + 1 = n from by omega]

theorem fib_93_lt : Nat.fib 93 < 2 ^ 64 := by
  rw [show Nat.fib 93 = 12200160415121876738 from by rfl]
  norm_num

theorem fibonacci_eq_fib_of_le_93 {n : Nat} (h : n ≤ 93) : fibonacci n = Nat.fib n := by
  rw [fibonacci_eq_fib]
  exact Nat.mod_eq_of_lt (lt_of_le_of_lt (Nat.fib_mono h) fib_93_lt)

/-- C4: `fibonacci n` is the `n`-th Fibonacci number of the standard
recurrence computed in 64-bit modular arithmetic, i.e.
`Nat.fib n % 2 ^ 64`, with the concrete values `fibonacci 0 = 0`,
`fibonacci 1 = 1`, `fibonacci 10 = 55` and `fibonacci 20 = 6765`. -/
theorem fibonacci_correct (n : Nat) :
    fibonacci n = Nat.fib n % 2 ^ 64 ∧
    fibonacci 0 = 0 ∧ fibonacci 1 = 1 ∧ fibonacci 10 = 55 ∧ fibonacci 20 = 6765 :=
  ⟨fibonacci_eq_fib n, by decide, by decide, by decide, by decide⟩

theorem fib_iter_checked_spec :
    ∀ (k m : Nat), Nat.fib (m + k + 1) < 2 ^ 64 →
      fib_iter_checked k (Nat.fib m, Nat.fib (m + 1))
        = some (Nat.fib (m + k), Nat.fib (m + k + 1)) := by
  intro k
  induction k with
  | zero => intro m _; rfl
  | succ k ih =>
    intro m hbound
    have hsum : Nat.fib m + Nat.fib (m + 1) = Nat.fib (m + 2) := by
      rw [Nat.fib_add_two]
    have hlt : Nat.fib m + Nat.fib (m + 1) < 2 ^ 64 := by
      rw [hsum]
      exact lt_of_le_of_lt (Nat.fib_mono (by omega)) hbound
    have hadd : checked_add64 (Nat.fib m) (Nat.fib (m + 1)) = some (Nat.fib (m + 1 + 1)) := by
      unfold checked_add64
      rw [if_pos hlt, show m + 1 + 1 = m + 2 from by omega, ← hsum]
    show (match checked_add64 (Nat.fib m) (Nat.fib (m + 1)) with
      | none => none
      | some t => fib_iter_checked k (Nat.fib (m + 1), t)) = _
    rw [hadd]
    show fib_iter_checked k (Nat.fib (m + 1), Nat.fib (m + 1 + 1)) = _
    rw [ih (m + 1) (by rw [show m + 1 + k + 1 = m + (k + 1) + 1 from by omega]; exact hbound)]
    rw [show m + 1 + k = m + (k + 1) from by omega]

theorem fibonacci_checked_eq_of_le_93 {n : Nat} (h : n ≤ 93) :
    fibonacci_checked n = some (Nat.fib n) := by
  unfold fibonacci_checked
  by_cases h1 : n ≤ 1
  · rw [if_pos h1]
    interval_cases n
    · rfl
    · rfl
  · rw [if_neg h1]
    have hb : Nat.fib (0 + (n - 1) + 1) < 2 ^ 64 := by
      apply lt_of_le_of_lt (Nat.fib_mono (show 0 + (n - 1) + 1 ≤ 93 by omega)) fib_93_lt
    rw [show ((0 : Nat), (1 : Nat)) = (Nat.fib 0, Nat.fib 1) from by norm_num]
    rw [fib_iter_checked_spec (n - 1) 0 hb]
    show some (Nat.fib (0 + (n - 1) + 1)) = _
    rw [show 0 + (n - 1) + 1 = n from by omega]

/-- C5 evidence: the Rust source computes `a + b` with an unchecked
`+` on `u64`.  Under Rust's overflow checks (the default debug and
test profile) this panics at the first overflowing index, `n = 94`,
modelled by `fibonacci_checked 94 = none`, while at `n = 93` it still
returns `some (Nat.fib 93)`; under disabled checks (the documented
release build) the wrapping model returns `Nat.fib 94 % 2 ^ 64`.  The
spec requires wrapping-safe addition that never raises, so the
unchecked `+` is a code bug. -/
theorem fibonacci_overflow_panics :
    fibonacci_checked 94 = none ∧
    fibonacci_checked 93 = some (Nat.fib 93) ∧
    fibonacci 94 = Nat.fib 94 % 2 ^ 64 ∧
    fibonacci 94 = 1293530146158671551 := by
  refine ⟨by decide, fibonacci_checked_eq_of_le_93 (by norm_num), fibonacci_eq_fib 94, ?_⟩
  decide

/-- C6: `fibonacci` is monotonically non-decreasing below the
wraparound threshold: whenever `n + 1 ≤ 93`, so that no 64-bit overflow
occurs through index `n + 1`, `fibonacci n ≤ fibonacci (n + 1)`. -/
theorem fibonacci_monotone (n : Nat) (h : n + 1 ≤ 93) :
    fibonacci n ≤ fibonacci (n + 1) := by
  rw [fibonacci_eq_fib_of_le_93 (by omega), fibonacci_eq_fib_of_le_93 h]
  exact Nat.fib_le_fib_succ

/-- Witness for C6 at `n = 10`: `fibonacci 10 ≤ fibonacci 11`. -/
theorem fibonacci_monotone_witness : fibonacci 10 ≤ fibonacci 11 :=
  fibonacci_monotone 10 (by norm_num)

/-! ### Lemmas about `hash_password` -/

theorem hash_once_idx :
    ∀ (l : List Nat) (i h : Nat),
      (List.enumFrom i l).foldl hash_step h = hashPassIdx l i h := by
  intro l
  induction l with
  | nil => intro i h; rfl
  | cons b bs ih =>
    intro i h
    show (List.enumFrom (i + 1) bs).foldl hash_step (hash_step h (i, b)) = _
    rw [ih]
    rfl

theorem hash_once_eq (bytes : List Nat) (h : Nat) :
    hash_once bytes h = hashPassIdx bytes 0 h :=
  hash_once_idx bytes 0 h

theorem range_fold_idx :
    ∀ (l : List Nat) (i h : Nat),
      (List.range' i l.length).foldl
          (fun a j => wrap64 (wrap64 (wrap64 (a * 31) + l.getD (j - i) 0) + j)) h
        = hashPassIdx l i h := by
  intro l
  induction l with
  | nil => intro i h; rfl
  | cons b bs ih =>
    intro i h
    rw [show (b :: bs).length = bs.length + 1 from rfl, List.range'_succ]
    show (List.range' (i + 1) bs.length).foldl
        (fun a j => wrap64 (wrap64 (wrap64 (a * 31) + (b :: bs).getD (j - i) 0) + j))
        (wrap64 (wrap64 (wrap64 (h * 31) + (b :: bs).getD (i - i) 0) + i)) = _
    rw [show (b :: bs).getD (i - i) 0 = b from by rw [Nat.sub_self]; rfl]
    rw [show (List.range' (i + 1) bs.length).foldl
          (fun a j => wrap64 (wrap64 (wrap64 (a * 31) + (b :: bs).getD (j - i) 0) + j))
          (wrap64 (wrap64 (wrap64 (h * 31) + b) + i))
        = (List.range' (i + 1) bs.length).foldl
          (fun a j => wrap64 (wrap64 (wrap64 (a * 31) + bs.getD (j - (i + 1)) 0) + j))
          (wrap64 (wrap64 (wrap64 (h * 31) + b) + i)) from by
      apply List.foldl_ext
      intro a j hj
      have hij : i + 1 ≤ j := (List.mem_range'_1.mp hj).1
      rw [show j - i = (j - (i + 1)) + 1 from by omega, List.getD_cons_succ]]
    exact ih (i + 1) _

theorem specPass_eq (bytes : List Nat) (acc : Nat) :
    (List.range bytes.length).foldl
        (fun a i => wrap64 (wrap64 (wrap64 (a * 31) + bytes.getD i 0) + i)) acc
      = hash_once bytes acc := by
  rw [List.range_eq_range', hash_once_eq, ← range_fold_idx bytes 0 acc]
  apply List.foldl_ext
  intro a j hj
  rw [Nat.sub_zero]

theorem hash_iter_eq_iterate (bytes : List Nat) :
    ∀ (k h : Nat), hash_iter bytes k h = (hash_once bytes)^[k] h := by
  intro k
  induction k with
  | zero => intro h; rfl
  | succ k ih =>
    intro h
    show hash_iter bytes k (hash_once bytes h) = _
    rw [ih, Function.iterate_succ_apply]

theorem specHashAccum_eq (bytes : List Nat) (iterations : Nat) :
    specHashAccum bytes iterations = hash_iter bytes iterations 0 := by
  unfold specHashAccum
  rw [hash_iter_eq_iterate]
  show (fun acc => (List.range bytes.length).foldl
      (fun a i => wrap64 (wrap64 (wrap64 (a * 31) + bytes.getD i 0) + i)) acc)^[iterations] 0
    = (hash_once bytes)^[iterations] 0
  congr 1
  funext acc
  exact specPass_eq bytes acc

theorem foldl_wrap64_lt {α : Type} (g : Nat → α → Nat) :
    ∀ (L : List α) (h : Nat), h < 2 ^ 64 →
      L.foldl (fun a x => wrap64 (g a x)) h < 2 ^ 64 := by
  intro L
  induction L with
  | nil => intro h hh; exact hh
  | cons x xs ih =>
    intro h hh
    show xs.foldl _ (wrap64 (g h x)) < 2 ^ 64
    exact ih _ (Nat.mod_lt _ (by norm_num))

theorem hash_once_lt (bytes : List Nat) (h : Nat) (hh : h < 2 ^ 64) :
    hash_once bytes h < 2 ^ 64 :=
  foldl_wrap64_lt (fun (a : Nat) (x : Nat × Nat) => wrap64 (wrap64 (a * 31) + x.2) + x.1)
    bytes.enum h hh

theorem hash_iter_lt (bytes : List Nat) :
    ∀ (k h : Nat), h < 2 ^ 64 → hash_iter bytes k h < 2 ^ 64 := by
  intro k
  induction k with
  | zero => intro h hh; exact hh
  | succ k ih =>
    intro h hh
    exact ih _ (hash_once_lt bytes h hh)

theorem hash_iter_nil : ∀ (k h : Nat), hash_iter ([] : List Nat) k h = h := by
  intro k
  induction k with
  | zero => intro h; rfl
  | succ k ih => intro h; exact ih h

theorem hash_iter_nul : ∀ k, hash_iter [0] k 0 = 0 := by
  intro k
  induction k with
  | zero => rfl
  | succ k ih =>
    show hash_iter [0] k (hash_once [0] 0) = 0
    rw [show hash_once [0] 0 = 0 from rfl]
    exact ih

theorem hexDigit_mem : ∀ d, d < 16 → hexDigit d ∈ "0123456789abcdef".data := by
  decide

theorem toHex16_length (h : Nat) : (toHex16 h).length = 16 := by
  show ((List.range 16).reverse.map fun j => hexDigit (h / 16 ^ j % 16)).length = 16
  simp

theorem toHex16_chars (h : Nat) :
    ∀ c ∈ (toHex16 h).data, c ∈ "0123456789abcdef".data := by
  intro c hc
  change c ∈ (List.range 16).reverse.map (fun j => hexDigit (h / 16 ^ j % 16)) at hc
  obtain ⟨j, _, rfl⟩ := List.mem_map.mp hc
  exact hexDigit_mem _ (Nat.mod_lt _ (by norm_num))

theorem toHex16_zero : toHex16 0 = "0000000000000000" := by decide

/-- C3: `hash_password bytes iterations` is exactly the spec's 64-bit
wrapping accumulator (multiplication and both additions each wrapping
modulo `2 ^ 64`, byte index 0-based, repeated for `iterations` full
passes), formatted as exactly 16 lowercase hexadecimal digits
zero-padded on the left; an empty password or zero iterations yields
the all-zero digest. -/
theorem hash_password_matches_spec (bytes : List Nat) (iterations : Nat) :
    hash_password bytes iterations = toHex16 (specHashAccum bytes iterations) ∧
    specHashAccum bytes iterations < 2 ^ 64 ∧
    (hash_password bytes iterations).length = 16 ∧
    (∀ c ∈ (hash_password bytes iterations).data, c ∈ "0123456789abcdef".data) ∧
    hash_password bytes 0 = "0000000000000000" ∧
    hash_password [] iterations = "0000000000000000" := by
  refine ⟨?_, ?_, toHex16_length _, toHex16_chars _, ?_, ?_⟩
  · unfold hash_password
    rw [specHashAccum_eq]
  · rw [specHashAccum_eq]
    exact hash_iter_lt bytes iterations 0 (by norm_num)
  · exact toHex16_zero
  · unfold hash_password
    rw [hash_iter_nil]
    exact toHex16_zero

/-- C10: the demo hash collides on a single NUL byte — for every
iteration count `k`, hashing the one-byte password `[0]` gives the same
digest as hashing the empty password, namely `"0000000000000000"`,
because a zero byte at index 0 maps a zero accumulator to zero. -/
theorem hash_password_nul_collision (k : Nat) :
    hash_password [0] k = hash_password [] k ∧
    hash_password [0] k = "0000000000000000" := by
  unfold hash_password
  rw [hash_iter_nil, hash_iter_nul]
  exact ⟨rfl, toHex16_zero⟩

/-! ### Determinism of the exposed operations -/

theorem runSession_at (pre post : List Request) (r : Request) :
    (runSession (pre ++ r :: post))[pre.length]? = some (runRequest r) := by
  unfold runSession
  rw [List.map_append, List.getElem?_append_right (by simp)]
  simp

/-- C9: every exposed operation is deterministic — the response to a
call depends only on the request itself, not on the position of the
call in the session nor on any earlier or later calls: the same request
`r`, played in two arbitrary sessions at arbitrary positions, yields
identical responses. -/
theorem operations_deterministic
    (pre₁ post₁ pre₂ post₂ : List Request) (r : Request) :
    (runSession (pre₁ ++ r :: post₁))[pre₁.length]?
      = (runSession (pre₂ ++ r :: post₂))[pre₂.length]? := by
  rw [runSession_at, runSession_at]

end RustAddon

